import Mathlib

/-!
Shallow embedding of the Chilean RUT validator (hardened variant,
`validate-chilean-rut.js`): `cleanRut`, `calculateVerificationDigit`,
`isValidRut`, `formatRut`, `validateRut`.

Strings are modelled as `List Char`.  Inputs of arbitrary dynamic type are
modelled by the sum type `JSValue`; the string conversion `String(x)` is
modelled by `jsToString`, which returns `none` exactly when the conversion
throws (e.g. an object whose `toString` raises).  Functions that are wrapped
in try/catch in the source collapse that `none` to their designated invalid
result; `calculateVerificationDigit`, whose conversion is not guarded in the
source, returns an `Except` so the propagated failure is visible.
-/

namespace Rut

/-- Value of the ECMAScript character class `\d` (regex `/^\d+$/`, `[K\d]`)
at a single character: a decimal digit `0`-`9`. -/
def jsIsDigit (c : Char) : Bool :=
  48 ≤ c.toNat && c.toNat ≤ 57

/-- The characters removed by `replace(/[.-\s]/g, '')`: the period (46), the
hyphen (45), and the ECMAScript `\s` class (tab 9, LF 10, VT 11, FF 12,
CR 13, space 32, NBSP 0xa0, and the Unicode space separators, line/paragraph
separators and BOM). -/
def isStripped (c : Char) : Bool :=
  let n := c.toNat
  n == 46 || n == 45 ||
  (9 ≤ n && n ≤ 13) || n == 32 || n == 0xa0 || n == 0x1680 ||
  (0x2000 ≤ n && n ≤ 0x200a) || n == 0x2028 || n == 0x2029 ||
  n == 0x202f || n == 0x205f || n == 0x3000 || n == 0xfeff

/-- Character-wise model of `toUpperCase()` on the alphabet the module owns
(ASCII): a lowercase ASCII letter is shifted to its uppercase form, any
other character is unchanged. -/
def jsToUpper (c : Char) : Char :=
  if 97 ≤ c.toNat ∧ c.toNat ≤ 122 then Char.ofNat (c.toNat - 32) else c

/-- Numeric value of a digit character, as `parseInt(d, 10)` produces it for
a single decimal digit. -/
def charVal (c : Char) : Nat :=
  c.toNat - 48

/-- A dynamically typed input value, as the public functions receive it.
`str` is a string; `nullv`/`undef` are the two absent values; `conv s` is any
other value (number, boolean, array, plain object, …) whose string
conversion succeeds and yields `s`; `nonconv` is a value whose string
conversion throws (e.g. an object created without a prototype). -/
inductive JSValue where
  | str (s : List Char)
  | nullv
  | undef
  | conv (s : List Char)
  | nonconv
deriving DecidableEq

/-- Model of `String(x)`: `none` when the conversion throws.  Note that
`String(null)` and `String(undefined)` do not throw; they yield the texts
`"null"` and `"undefined"`. -/
def jsToString : JSValue → Option (List Char)
  | .str s => some s
  | .nullv => some ("null".toList)
  | .undef => some ("undefined".toList)
  | .conv s => some s
  | .nonconv => none

/-- `cleanRut` (hardened variant): `null`/`undefined` yield `''` before any
conversion; otherwise `String(rut)` is attempted under try/catch (a throw
yields `''`), and the result is stripped of periods, hyphens and whitespace
and uppercased — `rutString.replace(/[.-\s]/g, '').toUpperCase()`. -/
def cleanRut (v : JSValue) : List Char :=
  match v with
  | .nullv => []
  | .undef => []
  | v =>
    match jsToString v with
    | none => []
    | some s => (s.filter (fun c => !isStripped c)).map jsToUpper

/-- The weight table `[2, 3, 4, 5, 6, 7, 2, 3, 4, 5, 6, 7]` of
`calculateVerificationDigit`. -/
def multipliers : List Nat := [2, 3, 4, 5, 6, 7, 2, 3, 4, 5, 6, 7]

/-- The summation loop of `calculateVerificationDigit`, applied to the
reversed digit list starting at index `i`:
`sum += parseInt(rutDigits[i], 10) * multipliers[i % multipliers.length]`. -/
def sumAux : List Char → Nat → Nat
  | [], _ => 0
  | c :: rest, i => charVal c * multipliers.getD (i % multipliers.length) 0 + sumAux rest (i + 1)

/-- The weighted checksum of a digit string: the source reverses the digits
and runs the summation loop from index 0. -/
def checksum (s : List Char) : Nat :=
  sumAux s.reverse 0

/-- The final mapping of `calculateVerificationDigit`:
`remainder = sum % 11`, `verificationDigit = 11 - remainder`, then
`11 → '0'`, `10 → 'K'`, otherwise the digit character of the value. -/
def dvChar (sum : Nat) : Char :=
  let vd := 11 - sum % 11
  if vd = 11 then '0'
  else if vd = 10 then 'K'
  else Char.ofNat (48 + vd)

/-- `calculateVerificationDigit` (hardened variant).  The conversion
`String(rutNumber)` is NOT wrapped in try/catch in the source, so a throwing
conversion propagates: this is the `Except.error` case.  Otherwise: reject
(`''`) unless the text matches `/^\d+$/`; reject (`''`) if longer than 20;
else reverse, weight, sum, and map the candidate to its character. -/
def calculateVerificationDigit (v : JSValue) : Except Unit (List Char) :=
  match jsToString v with
  | none => .error ()
  | some s =>
    if s.isEmpty || !(s.all jsIsDigit) then .ok []
    else if s.length > 20 then .ok []
    else .ok [dvChar (checksum s)]

/-- Model of the regex `^(\d+)([K\d])$` together with its two capture
groups: it matches exactly the strings of length at least 2 whose leading
characters are all digits and whose last character is a digit or `'K'`; by
greediness with backtracking, group 1 is everything but the last character
and group 2 is the last character. -/
def matchRut (s : List Char) : Option (List Char × Char) :=
  if 2 ≤ s.length ∧ s.dropLast.all jsIsDigit ∧
      (jsIsDigit (s.getLastD ' ') || s.getLastD ' ' == 'K') then
    some (s.dropLast, s.getLastD ' ')
  else
    none

/-- The body of `isValidRut` after the input has been cleaned: reject if the
cleaned length is below 2 or above 20, match `^(\d+)([K\d])$`, reject a
digit sequence longer than 20, compute the expected check character, reject
an empty computation, and finally compare computed and provided check
characters.  The source's try/catch is modelled by mapping the (unreachable)
`Except.error` of the calculator to `false`. -/
def isValidCore (cleanedRut : List Char) : Bool :=
  if cleanedRut.length < 2 then false
  else if cleanedRut.length > 20 then false
  else
    match matchRut cleanedRut with
    | none => false
    | some (rutNumber, providedVD) =>
      if rutNumber.length > 20 then false
      else
        match calculateVerificationDigit (.str rutNumber) with
        | .error _ => false
        | .ok computed => if computed.isEmpty then false else computed == [providedVD]

/-- `isValidRut` (hardened variant): clean the input, then run the checks of
`isValidCore` on the cleaned token. -/
def isValidRut (v : JSValue) : Bool :=
  isValidCore (cleanRut v)

/-- The formatting loop of `formatRut`, running over the digit sequence from
its last character to its first (so its first argument is the reversed digit
list), prepending each character to the accumulator and prepending a period
after every third character except before the first digit (`i !== 0`, i.e.
while characters remain). -/
def groupAux : List Char → Nat → List Char → List Char
  | [], _, acc => acc
  | c :: rest, counter, acc =>
    if counter + 1 = 3 ∧ rest ≠ [] then groupAux rest 0 ('.' :: c :: acc)
    else groupAux rest (counter + 1) (c :: acc)

/-- `formatRut` (hardened variant): clean, return `null` unless the cleaned
token validates, return `null` on an empty cleaned token, then split off the
last character, group the digit sequence with periods and reattach the check
character after a hyphen. -/
def formatRut (v : JSValue) : Option (List Char) :=
  let cleanedRut := cleanRut v
  if !isValidRut (.str cleanedRut) then none
  else if cleanedRut.isEmpty then none
  else
    let rutDigits := cleanedRut.dropLast
    let verificationDigit := cleanedRut.getLastD ' '
    some (groupAux rutDigits.reverse 0 [] ++ '-' :: [verificationDigit])

/-- The record returned by `validateRut`; the optional fields model the
presence or absence of `rutNumber` and `verificationDigit`. -/
structure RutResult where
  isValid : Bool
  formatted : Option (List Char)
  raw : List Char
  rutNumber : Option (List Char)
  verificationDigit : Option Char
deriving DecidableEq

/-- `validateRut` (hardened variant): clean, validate the cleaned token,
return the invalid record early, otherwise re-match `^(\d+)([K\d])$` (with a
defensive invalid record if the re-match failed) and assemble the full
record.  The source's outer try/catch is unreachable: every step inside is
total. -/
def validateRut (v : JSValue) : RutResult :=
  let cleanedRut := cleanRut v
  let valid := isValidRut (.str cleanedRut)
  if !valid then
    ⟨false, none, cleanedRut, none, none⟩
  else
    match matchRut cleanedRut with
    | none => ⟨false, none, cleanedRut, none, none⟩
    | some (rutNumber, verificationDigit) =>
      ⟨true, formatRut (.str cleanedRut), cleanedRut, some rutNumber, some verificationDigit⟩

/-! ### Spec-side definitions

Definitions that follow the specification's own words, to be compared with
the definitions translated from the source. -/

/-- The weight cycle `[2, 3, 4, 5, 6, 7]` as the spec words the Module-11
scheme: position `i` (0-indexed from the original last digit) is weighted by
`cycle[i mod 6]`. -/
def specCycle : List Nat := [2, 3, 4, 5, 6, 7]

/-- The weighted sum as the spec words it: digit at position `i` of the
reversed sequence times `specCycle[i mod 6]`. -/
def specSum : List Char → Nat → Nat
  | [], _ => 0
  | c :: rest, i => charVal c * specCycle.getD (i % 6) 0 + specSum rest (i + 1)

/-- The Module-11 check character as the spec words it: reverse the digits,
weight position `i` by `specCycle[i mod 6]`, sum, take
`remainder = sum mod 11` and `candidate = 11 - remainder`, and map
candidate 11 to `'0'`, candidate 10 to `'K'`, any other candidate to its
decimal digit character. -/
def specDV (s : List Char) : Char :=
  let candidate := 11 - specSum s.reverse 0 % 11
  if candidate = 11 then '0'
  else if candidate = 10 then 'K'
  else Char.ofNat (48 + candidate)

/-- Groups of three characters taken from the front of a list (used on the
reversed digit sequence, so the groups count from the right of the original
sequence); a last group of one or two characters is kept as is. -/
def chunks3 : List Char → List (List Char)
  | [] => []
  | [a] => [[a]]
  | [a, b] => [[a, b]]
  | a :: b :: c :: rest => [a, b, c] :: chunks3 rest

/-- Joining of groups with a single `'.'` between adjacent groups — no
separator before the first group or after the last. -/
def dotJoin : List (List Char) → List Char
  | [] => []
  | [g] => g
  | g :: g2 :: gs => g ++ '.' :: dotJoin (g2 :: gs)

/-- The digit grouping as the spec words it: a `'.'` separator inserted
every three digits counting from the right, never before the first digit
(`'12345678'` renders as `'12.345.678'`). -/
def specGroup (num : List Char) : List Char :=
  (dotJoin (chunks3 num.reverse)).reverse

/-! ### Character-level lemmas -/

theorem toNat_ofNat_valid (n : Nat) (h : n < 55296) : (Char.ofNat n).toNat = n := by
  have hv : n.isValidChar := Or.inl (by omega)
  simp [Char.ofNat, dif_pos hv, Char.ofNatAux, Char.toNat, UInt32.toNat, BitVec.toNat_ofNatLt]

theorem jsIsDigit_iff {c : Char} : jsIsDigit c = true ↔ 48 ≤ c.toNat ∧ c.toNat ≤ 57 := by
  simp [jsIsDigit]

theorem isStripped_eq_false_of_digit {c : Char} (h : jsIsDigit c = true) :
    isStripped c = false := by
  rw [jsIsDigit_iff] at h
  simp only [isStripped]
  simp only [Bool.or_eq_false_iff, Bool.and_eq_false_iff, beq_eq_false_iff_ne, ne_eq,
    decide_eq_false_iff_not, not_le]
  omega

theorem jsToUpper_eq_self {c : Char} (h : ¬(97 ≤ c.toNat ∧ c.toNat ≤ 122)) :
    jsToUpper c = c := by
  rw [jsToUpper, if_neg h]

theorem jsToUpper_of_digit {c : Char} (h : jsIsDigit c = true) : jsToUpper c = c := by
  rw [jsIsDigit_iff] at h
  exact jsToUpper_eq_self (by omega)

theorem toNat_jsToUpper (c : Char) :
    (jsToUpper c).toNat = if 97 ≤ c.toNat ∧ c.toNat ≤ 122 then c.toNat - 32 else c.toNat := by
  rw [jsToUpper]
  split
  · exact toNat_ofNat_valid _ (by omega)
  · rfl

theorem isStripped_iff {c : Char} :
    isStripped c = true ↔ (c.toNat = 46 ∨ c.toNat = 45 ∨ (9 ≤ c.toNat ∧ c.toNat ≤ 13) ∨
      c.toNat = 32 ∨ c.toNat = 160 ∨ c.toNat = 5760 ∨
      (8192 ≤ c.toNat ∧ c.toNat ≤ 8202) ∨ c.toNat = 8232 ∨ c.toNat = 8233 ∨
      c.toNat = 8239 ∨ c.toNat = 8287 ∨ c.toNat = 12288 ∨ c.toNat = 65279) := by
  simp only [isStripped, Bool.or_eq_true, beq_iff_eq, Bool.and_eq_true, decide_eq_true_eq]
  tauto

theorem isStripped_jsToUpper_eq_false {c : Char} (h : isStripped c = false) :
    isStripped (jsToUpper c) = false := by
  by_cases hc : 97 ≤ c.toNat ∧ c.toNat ≤ 122
  · cases hb : isStripped (jsToUpper c) with
    | false => rfl
    | true =>
      have hmem := isStripped_iff.mp hb
      rw [toNat_jsToUpper, if_pos hc] at hmem
      omega
  · rw [jsToUpper_eq_self hc]
    exact h

theorem jsToUpper_idem (c : Char) : jsToUpper (jsToUpper c) = jsToUpper c := by
  by_cases h : 97 ≤ c.toNat ∧ c.toNat ≤ 122
  · have ht : (jsToUpper c).toNat = c.toNat - 32 := by rw [toNat_jsToUpper, if_pos h]
    exact jsToUpper_eq_self (by omega)
  · rw [jsToUpper_eq_self h, jsToUpper_eq_self h]

/-! ### `cleanRut` lemmas -/

theorem cleanRut_str (s : List Char) :
    cleanRut (.str s) = (s.filter (fun c => !isStripped c)).map jsToUpper := rfl

theorem cleanRut_idem_str (s : List Char) :
    cleanRut (.str (cleanRut (.str s))) = cleanRut (.str s) := by
  rw [cleanRut_str, cleanRut_str]
  have hfix : List.filter (fun c => !isStripped c)
        (List.map jsToUpper (List.filter (fun c => !isStripped c) s)) =
      List.map jsToUpper (List.filter (fun c => !isStripped c) s) := by
    apply List.filter_eq_self.2
    intro a ha
    obtain ⟨b, hb, rfl⟩ := List.mem_map.1 ha
    have hpb : isStripped b = false := by simpa using List.of_mem_filter hb
    simp [isStripped_jsToUpper_eq_false hpb]
  rw [hfix, List.map_map]
  exact List.map_congr_left fun a _ => by simp [Function.comp, jsToUpper_idem]

theorem clean_idem (v : JSValue) : cleanRut (.str (cleanRut v)) = cleanRut v := by
  cases v with
  | str s => exact cleanRut_idem_str s
  | nullv => rfl
  | undef => rfl
  | conv s => exact cleanRut_idem_str s
  | nonconv => rfl

theorem cleanRut_of_fixed {s : List Char}
    (h : ∀ c ∈ s, isStripped c = false ∧ jsToUpper c = c) :
    cleanRut (.str s) = s := by
  rw [cleanRut_str, List.filter_eq_self.2 (fun a ha => by simp [(h a ha).1])]
  exact (List.map_congr_left fun a ha => (h a ha).2).trans (by simp)

/-! ### `matchRut` characterization -/

theorem matchRut_concat {num : List Char} {dv : Char} (hne : num ≠ [])
    (hdig : ∀ c ∈ num, jsIsDigit c = true) (hdv : jsIsDigit dv = true ∨ dv = 'K') :
    matchRut (num ++ [dv]) = some (num, dv) := by
  unfold matchRut
  rw [if_pos, List.dropLast_concat, List.getLastD_concat]
  refine ⟨?_, ?_, ?_⟩
  · rw [List.length_append]
    have := List.length_pos.2 hne
    simp
    omega
  · rw [List.dropLast_concat]
    exact List.all_eq_true.2 hdig
  · rw [List.getLastD_concat]
    cases hdv with
    | inl h => simp [h]
    | inr h => simp [h]

theorem matchRut_eq_some {s num : List Char} {dv : Char}
    (h : matchRut s = some (num, dv)) :
    s = num ++ [dv] ∧ num ≠ [] ∧ (∀ c ∈ num, jsIsDigit c = true) ∧
      (jsIsDigit dv = true ∨ dv = 'K') := by
  unfold matchRut at h
  split at h
  case isFalse => exact absurd h (by simp)
  case isTrue hcond =>
    obtain ⟨h1, h2, h3⟩ := hcond
    have h' := Option.some.inj h
    have hnil : s ≠ [] := by
      intro hs
      subst hs
      simp at h1
    have hgl : s.getLastD ' ' = s.getLast hnil := by
      rw [List.getLastD_eq_getLast?, List.getLast?_eq_getLast _ hnil]
      rfl
    have hnum : num = s.dropLast := (congrArg Prod.fst h').symm
    have hdv : dv = s.getLastD ' ' := (congrArg Prod.snd h').symm
    subst hnum
    subst hdv
    refine ⟨?_, ?_, ?_, ?_⟩
    · rw [hgl]
      exact (List.dropLast_append_getLast hnil).symm
    · have : s.dropLast.length = s.length - 1 := by simp
      intro hd
      rw [hd] at this
      simp at this
      omega
    · exact fun c hc => List.all_eq_true.1 h2 c hc
    · have h3' : jsIsDigit (s.getLastD ' ') = true ∨ (s.getLastD ' ' == 'K') = true := by
        simpa using h3
      rcases h3' with h | h
      · exact Or.inl h
      · exact Or.inr (by simpa using h)

/-! ### `calculateVerificationDigit` lemmas -/

theorem calcVD_str (s : List Char) :
    calculateVerificationDigit (.str s) =
      if s.isEmpty || !(s.all jsIsDigit) then .ok []
      else if s.length > 20 then .ok []
      else .ok [dvChar (checksum s)] := rfl

theorem calcVD_ok {s : List Char} (hne : s ≠ []) (hall : s.all jsIsDigit = true)
    (hlen : s.length ≤ 20) :
    calculateVerificationDigit (.str s) = .ok [dvChar (checksum s)] := by
  rw [calcVD_str, if_neg (by simp [List.isEmpty_iff, hne, hall]), if_neg (by omega)]

theorem calcVD_fail {s : List Char}
    (h : s = [] ∨ s.all jsIsDigit = false ∨ 20 < s.length) :
    calculateVerificationDigit (.str s) = .ok [] := by
  rw [calcVD_str]
  rcases h with h | h | h
  · rw [if_pos (by simp [h])]
  · rw [if_pos (by simp [h])]
  · by_cases h1 : (s.isEmpty || !(s.all jsIsDigit)) = true
    · rw [if_pos h1]
    · rw [if_neg h1, if_pos (by omega)]

theorem dvChar_digit_or_K (n : Nat) : jsIsDigit (dvChar n) = true ∨ dvChar n = 'K' := by
  have h : n % 11 < 11 := Nat.mod_lt _ (by omega)
  have key : ∀ r, r < 11 →
      jsIsDigit (if 11 - r = 11 then '0' else if 11 - r = 10 then 'K'
        else Char.ofNat (48 + (11 - r))) = true ∨
      (if 11 - r = 11 then '0' else if 11 - r = 10 then 'K'
        else Char.ofNat (48 + (11 - r))) = 'K' := by decide
  simpa [dvChar] using key (n % 11) h

/-! ### `isValidCore` characterization -/

theorem isValidCore_of {c num : List Char} {dv : Char}
    (hm : matchRut c = some (num, dv)) (hlen : c.length ≤ 20)
    (hcv : calculateVerificationDigit (.str num) = .ok [dv]) :
    isValidCore c = true := by
  obtain ⟨hs, hne, _, _⟩ := matchRut_eq_some hm
  have hlen2 : 2 ≤ c.length := by
    rw [hs, List.length_append]
    have := List.length_pos.2 hne
    simp
    omega
  have hnum : num.length ≤ 20 := by
    rw [hs, List.length_append] at hlen
    simp at hlen
    omega
  simp only [isValidCore, hm, hcv]
  rw [if_neg (by omega), if_neg (by omega), if_neg (by omega)]
  simp

theorem of_isValidCore {c : List Char} (h : isValidCore c = true) :
    ∃ num dv, matchRut c = some (num, dv) ∧ c.length ≤ 20 ∧
      calculateVerificationDigit (.str num) = .ok [dv] := by
  unfold isValidCore at h
  by_cases h1 : c.length < 2
  · rw [if_pos h1] at h
    simp at h
  rw [if_neg h1] at h
  by_cases h2 : c.length > 20
  · rw [if_pos h2] at h
    simp at h
  rw [if_neg h2] at h
  cases hm : matchRut c with
  | none =>
    simp only [hm] at h
    simp at h
  | some p =>
    obtain ⟨num, dv⟩ := p
    simp only [hm] at h
    by_cases h3 : num.length > 20
    · rw [if_pos h3] at h
      simp at h
    rw [if_neg h3] at h
    cases hcv : calculateVerificationDigit (.str num) with
    | error e =>
      simp only [hcv] at h
      simp at h
    | ok computed =>
      simp only [hcv] at h
      by_cases h4 : computed.isEmpty = true
      · rw [if_pos h4] at h
        simp at h
      rw [if_neg h4] at h
      have hc : computed = [dv] := by simpa using h
      exact ⟨num, dv, rfl, by omega, by rw [hcv, hc]⟩

theorem isValid_clean (v : JSValue) : isValidRut (.str (cleanRut v)) = isValidRut v := by
  show isValidCore (cleanRut (.str (cleanRut v))) = isValidCore (cleanRut v)
  rw [clean_idem]

/-! ### Grouping lemmas -/

theorem groupAux_filter : ∀ (l : List Char) (counter : Nat) (acc : List Char),
    (∀ x ∈ l, isStripped x = false) →
    (groupAux l counter acc).filter (fun c => !isStripped c) =
      l.reverse ++ acc.filter (fun c => !isStripped c)
  | [], _, acc, _ => by simp [groupAux]
  | c :: rest, counter, acc, h => by
    have hc : isStripped c = false := h c (by simp)
    have hrest : ∀ x ∈ rest, isStripped x = false := fun x hx => h x (by simp [hx])
    unfold groupAux
    split
    · rw [groupAux_filter rest 0 _ hrest]
      simp [List.filter_cons, hc, show isStripped '.' = true from rfl]
    · rw [groupAux_filter rest (counter + 1) _ hrest]
      simp [List.filter_cons, hc]

theorem groupAux_dotJoin : ∀ (l acc : List Char),
    groupAux l 0 acc = (dotJoin (chunks3 l)).reverse ++ acc
  | [], acc => by simp [groupAux, chunks3, dotJoin]
  | [a], acc => by simp [groupAux, chunks3, dotJoin]
  | [a, b], acc => by simp [groupAux, chunks3, dotJoin]
  | [a, b, c], acc => by simp [groupAux, chunks3, dotJoin]
  | a :: b :: c :: d :: rest, acc => by
    have ih := groupAux_dotJoin (d :: rest) ('.' :: c :: b :: a :: acc)
    have hchunk : ∃ C CS, chunks3 (d :: rest) = C :: CS := by
      match rest with
      | [] => exact ⟨_, _, rfl⟩
      | [e] => exact ⟨_, _, rfl⟩
      | e :: f :: r => exact ⟨_, _, rfl⟩
    obtain ⟨C, CS, hC⟩ := hchunk
    have step : groupAux (a :: b :: c :: d :: rest) 0 acc
        = groupAux (d :: rest) 0 ('.' :: c :: b :: a :: acc) := rfl
    rw [step, ih, show chunks3 (a :: b :: c :: d :: rest) = [a, b, c] :: chunks3 (d :: rest) from rfl,
      hC, show dotJoin ([a, b, c] :: C :: CS) = [a, b, c] ++ '.' :: dotJoin (C :: CS) from rfl]
    simp

/-! ### Source weights agree with the spec's 6-cycle -/

theorem multipliers_getD (i : Nat) :
    multipliers.getD (i % multipliers.length) 0 = specCycle.getD (i % 6) 0 := by
  have h1 : i % 12 < 12 := Nat.mod_lt _ (by omega)
  have h2 : i % 12 % 6 = i % 6 := Nat.mod_mod_of_dvd i (by norm_num)
  have key : ∀ j, j < 12 → multipliers.getD j 0 = specCycle.getD (j % 6) 0 := by decide
  have hkey := key (i % 12) h1
  rw [h2] at hkey
  exact hkey

theorem sumAux_eq_specSum : ∀ (l : List Char) (i : Nat), sumAux l i = specSum l i
  | [], _ => rfl
  | c :: rest, i => by
    unfold sumAux specSum
    rw [multipliers_getD, sumAux_eq_specSum rest (i + 1)]

theorem dvChar_checksum_eq_specDV (s : List Char) : dvChar (checksum s) = specDV s := by
  show dvChar (sumAux s.reverse 0) = specDV s
  rw [sumAux_eq_specSum]
  rfl

/-! ### `formatRut` and `validateRut` unfolding -/

theorem formatRut_of_invalid {v : JSValue} (h : isValidRut v = false) :
    formatRut v = none := by
  simp only [formatRut, isValid_clean, h]
  rfl

theorem formatRut_of_valid {v : JSValue} (h : isValidRut v = true) :
    formatRut v = some (groupAux (cleanRut v).dropLast.reverse 0 [] ++
      '-' :: [(cleanRut v).getLastD ' ']) := by
  have hne : cleanRut v ≠ [] := by
    obtain ⟨num, dv, hm, _, _⟩ := of_isValidCore h
    obtain ⟨hs, _, _, _⟩ := matchRut_eq_some hm
    rw [hs]
    simp
  simp only [formatRut, isValid_clean, h]
  simp [List.isEmpty_iff, hne]

theorem validateRut_of_invalid {v : JSValue} (h : isValidRut v = false) :
    validateRut v = ⟨false, none, cleanRut v, none, none⟩ := by
  simp only [validateRut, isValid_clean, h]
  rfl

theorem validateRut_of_valid {v : JSValue} {num : List Char} {dv : Char}
    (h : isValidRut v = true) (hm : matchRut (cleanRut v) = some (num, dv)) :
    validateRut v = ⟨true, formatRut (.str (cleanRut v)), cleanRut v, some num, some dv⟩ := by
  simp only [validateRut, isValid_clean, h, hm]
  rfl

/-! ### Valid tokens built from a computed check character -/

theorem clean_fixes_digit_append {d : List Char} (hdig : ∀ c ∈ d, jsIsDigit c = true)
    {ch : Char} (hch : jsIsDigit ch = true ∨ ch = 'K') :
    cleanRut (.str (d ++ [ch])) = d ++ [ch] := by
  apply cleanRut_of_fixed
  intro c hc
  rcases List.mem_append.1 hc with hcd | hcdv
  · exact ⟨isStripped_eq_false_of_digit (hdig c hcd), jsToUpper_of_digit (hdig c hcd)⟩
  · have hcv : c = ch := by simpa using hcdv
    subst hcv
    rcases hch with h | h
    · exact ⟨isStripped_eq_false_of_digit h, jsToUpper_of_digit h⟩
    · subst h
      exact ⟨rfl, rfl⟩

theorem valid_append_dv {d : List Char} (hne : d ≠ []) (hdig : ∀ c ∈ d, jsIsDigit c = true)
    (hlen : d.length ≤ 19) :
    isValidRut (.str (d ++ [dvChar (checksum d)])) = true := by
  have hcv : calculateVerificationDigit (.str d) = .ok [dvChar (checksum d)] :=
    calcVD_ok hne (List.all_eq_true.2 hdig) (by omega)
  have hch := dvChar_digit_or_K (checksum d)
  show isValidCore (cleanRut (.str (d ++ [dvChar (checksum d)]))) = true
  rw [clean_fixes_digit_append hdig hch]
  exact isValidCore_of (matchRut_concat hne hdig hch)
    (by rw [List.length_append]; simp; omega) hcv

end Rut

deriving instance DecidableEq for Except

namespace Rut

/-- C1 counterexample: the claim's failure condition ("contains a character
that is not a decimal digit or has length greater than 20") does not cover
the empty digit text, yet `calculateVerificationDigit('')` returns the empty
string (the regex `^\d+$` requires at least one digit), so the claimed
"if and only if" is false at the empty input. -/
theorem calcVD_empty_input_refutes_C1 :
    ¬ (calculateVerificationDigit (.str []) = .ok [] ↔
       ((∃ c ∈ ([] : List Char), jsIsDigit c = false) ∨ 20 < ([] : List Char).length)) := by
  intro h
  rcases h.mp rfl with ⟨c, hc, _⟩ | h2
  · exact absurd hc (List.not_mem_nil c)
  · simp at h2

/-- C1 (amended): for any input whose textual representation is `s`,
`calculateVerificationDigit` returns the empty string iff `s` is empty,
contains a character that is not a decimal digit, or has length greater
than 20; otherwise it returns the single character obtained by the
Module-11 scheme (reverse the digits, weight position `i` by
`[2,3,4,5,6,7][i mod 6]`, sum exactly, `remainder = sum mod 11`,
`candidate = 11 - remainder`, candidate 11 ↦ `'0'`, 10 ↦ `'K'`, otherwise
the digit character). -/
theorem calcVD_spec (v : JSValue) (s : List Char) (hconv : jsToString v = some s) :
    (calculateVerificationDigit v = .ok [] ↔
      (s = [] ∨ (∃ c ∈ s, jsIsDigit c = false) ∨ 20 < s.length)) ∧
    (s ≠ [] → (∀ c ∈ s, jsIsDigit c = true) → s.length ≤ 20 →
      calculateVerificationDigit v = .ok [specDV s]) := by
  have hv : calculateVerificationDigit v = calculateVerificationDigit (.str s) := by
    unfold calculateVerificationDigit
    rw [hconv, show jsToString (.str s) = some s from rfl]
  rw [hv]
  constructor
  · constructor
    · intro h
      by_contra hn
      push_neg at hn
      obtain ⟨hne, hdig, hlen⟩ := hn
      have hall : s.all jsIsDigit = true :=
        List.all_eq_true.2 (fun c hc => by simpa using hdig c hc)
      rw [calcVD_ok hne hall (by omega)] at h
      simp at h
    · intro h
      apply calcVD_fail
      rcases h with h | h | h
      · exact Or.inl h
      · refine Or.inr (Or.inl ?_)
        obtain ⟨c, hc, hcf⟩ := h
        rw [List.all_eq_false]
        exact ⟨c, hc, by simp [hcf]⟩
      · exact Or.inr (Or.inr h)
  · intro hne hdig hlen
    rw [calcVD_ok hne (List.all_eq_true.2 hdig) hlen, dvChar_checksum_eq_specDV]

/-- C1 witness: the amended theorem applied to the concrete digit string
`'12345678'`, whose check character is `'5'`. -/
theorem calcVD_spec_witness :
    calculateVerificationDigit (.str ("12345678".toList)) = .ok ['5'] := by
  have h := (calcVD_spec (.str ("12345678".toList)) ("12345678".toList) rfl).2
    (by decide) (by decide) (by decide)
  exact h.trans (congrArg Except.ok (by decide))

/-- C2: `isValidRut` returns `true` iff the cleaned token has length between
2 and 20, decomposes as a non-empty digit sequence followed by one trailing
digit-or-`'K'` character, and `calculateVerificationDigit` on the digit
sequence returns exactly the provided trailing check character. -/
theorem isValidRut_iff_checksum (v : JSValue) :
    isValidRut v = true ↔
      (2 ≤ (cleanRut v).length ∧ (cleanRut v).length ≤ 20 ∧
       ∃ num dv, cleanRut v = num ++ [dv] ∧ num ≠ [] ∧
         (∀ c ∈ num, jsIsDigit c = true) ∧ (jsIsDigit dv = true ∨ dv = 'K') ∧
         calculateVerificationDigit (.str num) = .ok [dv]) := by
  constructor
  · intro h
    obtain ⟨num, dv, hm, hlen, hcv⟩ := of_isValidCore h
    obtain ⟨hs, hne, hdig, hdv⟩ := matchRut_eq_some hm
    refine ⟨?_, hlen, num, dv, hs, hne, hdig, hdv, hcv⟩
    rw [hs, List.length_append]
    have := List.length_pos.2 hne
    simp
    omega
  · rintro ⟨h2, h20, num, dv, hs, hne, hdig, hdv, hcv⟩
    show isValidCore (cleanRut v) = true
    exact isValidCore_of (by rw [hs]; exact matchRut_concat hne hdig hdv) h20 hcv

/-- C3 counterexample: the Module-11 sum for `'7654321'` is 126, whose
remainder mod 11 is 5, so the computed check character is `'6'`, not `'K'`:
the calculator does not return `'K'`, `isValidRut('7654321K')` is not true,
and `formatRut('7654321K')` is not `'7.654.321-K'`. -/
theorem rut7654321_check_is_not_K :
    ¬ (calculateVerificationDigit (.str ("7654321".toList)) = .ok ['K'] ∧
       isValidRut (.str ("7654321K".toList)) = true ∧
       formatRut (.str ("7654321K".toList)) = some ("7.654.321-K".toList)) := by
  decide

/-- C3 (amended): `calculateVerificationDigit('7654321')` returns `'6'`,
and consequently `isValidRut('76543216')` returns `true` and
`formatRut('76543216')` returns `'7.654.321-6'` (while the token
`'7654321K'` asserted by the repository's test data is rejected). -/
theorem rut7654321_check_digit :
    calculateVerificationDigit (.str ("7654321".toList)) = .ok ['6'] ∧
    isValidRut (.str ("76543216".toList)) = true ∧
    formatRut (.str ("76543216".toList)) = some ("7.654.321-6".toList) := by
  decide

/-- C4: the totality claim fails for `calculateVerificationDigit`: its
string conversion (`String(rutNumber)`, commented "Convert to string
safely") is the only one of the five entry points not wrapped in try/catch,
so an input whose string conversion throws propagates the failure to the
caller instead of collapsing to the designated invalid result `''`. -/
theorem calcVD_error_on_nonconvertible :
    calculateVerificationDigit JSValue.nonconv = .error () := rfl

/-- C5: `cleanRut` is total and deterministic: `null` and `undefined` map
to the empty string before any conversion is attempted; an input whose
string conversion throws maps to the empty string; any other input's
textual representation is stripped of periods, hyphens and whitespace and
uppercased. -/
theorem cleanRut_spec (v : JSValue) (s : List Char) :
    cleanRut .nullv = [] ∧ cleanRut .undef = [] ∧
    (jsToString v = none → cleanRut v = []) ∧
    (v ≠ .nullv → v ≠ .undef → jsToString v = some s →
      cleanRut v = (s.filter (fun c => !isStripped c)).map jsToUpper) := by
  refine ⟨rfl, rfl, ?_, ?_⟩
  · intro h
    cases v <;> first
      | rfl
      | exact absurd h (by simp [jsToString])
  · intro h1 h2 h3
    cases v with
    | str t =>
      have ht : t = s := by simpa [jsToString] using h3
      subst ht
      rfl
    | nullv => exact absurd rfl h1
    | undef => exact absurd rfl h2
    | conv t =>
      have ht : t = s := by simpa [jsToString] using h3
      subst ht
      rfl
    | nonconv => simp [jsToString] at h3

/-- C5 witness: the theorem applied to a number-like convertible value
whose text is `'12.345.678-k'`: periods and the hyphen are removed and the
lowercase `k` is uppercased. -/
theorem cleanRut_spec_witness :
    cleanRut (.conv ("12.345.678-k".toList)) = "12345678K".toList := by
  have h := (cleanRut_spec (.conv ("12.345.678-k".toList)) ("12.345.678-k".toList)).2.2.2
    (by simp) (by simp) rfl
  exact h.trans (by decide)

/-- C6: format round-trip: for every cleaned token `t` accepted by
`isValidRut`, `formatRut t` is a string whose cleaning gives back `t`. -/
theorem format_roundTrip (t : List Char) (hclean : cleanRut (.str t) = t)
    (hvalid : isValidRut (.str t) = true) :
    ∃ f, formatRut (.str t) = some f ∧ cleanRut (.str f) = t := by
  have hvc : isValidCore t = true := by
    have hv : isValidCore (cleanRut (.str t)) = true := hvalid
    rwa [hclean] at hv
  obtain ⟨num, dv, hm, hlen, hcv⟩ := of_isValidCore hvc
  obtain ⟨hs, hne, hdig, hdv⟩ := matchRut_eq_some hm
  have hfmt := formatRut_of_valid hvalid
  rw [hclean] at hfmt
  refine ⟨_, hfmt, ?_⟩
  rw [cleanRut_str]
  subst hs
  rw [List.dropLast_concat, List.getLastD_concat, List.filter_append]
  have hdigrev : ∀ x ∈ num.reverse, isStripped x = false := fun x hx =>
    isStripped_eq_false_of_digit (hdig x (List.mem_reverse.1 hx))
  rw [groupAux_filter num.reverse 0 [] hdigrev]
  have hdvns : isStripped dv = false := by
    rcases hdv with h | h
    · exact isStripped_eq_false_of_digit h
    · subst h
      rfl
  have hfdv : List.filter (fun c => !isStripped c) ('-' :: [dv]) = [dv] := by
    simp [List.filter_cons, show isStripped '-' = true from rfl, hdvns]
  simp only [List.reverse_reverse, List.filter_nil, List.append_nil, hfdv]
  rw [List.map_append]
  have h1 : num.map jsToUpper = num :=
    (List.map_congr_left fun a ha => jsToUpper_of_digit (hdig a ha)).trans (by simp)
  have h2 : [dv].map jsToUpper = [dv] := by
    rcases hdv with h | h
    · simp [jsToUpper_of_digit h]
    · subst h
      rfl
  rw [h1, h2]

/-- C6 witness: the round trip at the valid cleaned token `'123456785'`. -/
theorem format_roundTrip_witness :
    cleanRut (.str ((formatRut (.str ("123456785".toList))).getD [])) =
      "123456785".toList := by
  obtain ⟨f, h1, h2⟩ := format_roundTrip ("123456785".toList) (by decide) (by decide)
  rw [h1]
  exact h2

/-- C7: on every input that validates, `formatRut` returns the digit
sequence grouped by a `'.'` every three digits counting from the right
(never before the first digit), then a hyphen and the check character; on
every input that does not validate it returns `null`. -/
theorem formatRut_spec (v : JSValue) :
    (isValidRut v = false → formatRut v = none) ∧
    (∀ num dv, cleanRut v = num ++ [dv] → isValidRut v = true →
      formatRut v = some (specGroup num ++ '-' :: [dv])) := by
  refine ⟨formatRut_of_invalid, ?_⟩
  intro num dv hs h
  rw [formatRut_of_valid h, hs, List.dropLast_concat, List.getLastD_concat,
    groupAux_dotJoin, List.append_nil]
  rfl

/-- C7 witness: the theorem applied at `'123456785'`, which formats as
`'12.345.678-5'`. -/
theorem formatRut_spec_witness :
    formatRut (.str ("123456785".toList)) = some ("12.345.678-5".toList) := by
  have h := (formatRut_spec (.str ("123456785".toList))).2 ("12345678".toList) '5'
    (by decide) (by decide)
  exact h.trans (by decide)

/-- C8: the record returned by `validateRut` has `rutNumber` and
`verificationDigit` present exactly when `isValid` is true; when invalid it
is exactly `{isValid: false, formatted: null, raw: cleanRut x}`; when valid,
`raw` is the cleaned token, `rutNumber` its digit sequence (all but the last
character) and `verificationDigit` its last character. -/
theorem validateRut_spec (v : JSValue) :
    ((validateRut v).rutNumber.isSome = (validateRut v).isValid ∧
     (validateRut v).verificationDigit.isSome = (validateRut v).isValid) ∧
    ((validateRut v).isValid = false →
      validateRut v = ⟨false, none, cleanRut v, none, none⟩) ∧
    ((validateRut v).isValid = true →
      (validateRut v).raw = cleanRut v ∧
      (validateRut v).rutNumber = some ((cleanRut v).dropLast) ∧
      (validateRut v).verificationDigit = some ((cleanRut v).getLastD ' ')) := by
  by_cases h : isValidRut v = true
  · obtain ⟨num, dv, hm, hlen, hcv⟩ := of_isValidCore h
    have hval := validateRut_of_valid h hm
    obtain ⟨hs, hne, hdig, hdv⟩ := matchRut_eq_some hm
    rw [hval]
    refine ⟨⟨rfl, rfl⟩, ?_, ?_⟩
    · intro hfalse
      exact Bool.noConfusion hfalse
    · intro _
      refine ⟨rfl, ?_, ?_⟩
      · rw [hs, List.dropLast_concat]
      · rw [hs, List.getLastD_concat]
  · have hf : isValidRut v = false := by simpa using h
    rw [validateRut_of_invalid hf]
    exact ⟨⟨rfl, rfl⟩, fun _ => rfl, fun htrue => Bool.noConfusion htrue⟩

/-- C8 witness: the theorem applied at `'12.345.678-5'`, extracting the
digit-sequence field of the returned record. -/
theorem validateRut_spec_witness :
    (validateRut (.str ("12.345.678-5".toList))).rutNumber =
      some ("12345678".toList) := by
  have h := (validateRut_spec (.str ("12.345.678-5".toList))).2.2 (by decide)
  exact h.2.1.trans (by decide)

/-- C9: normalization is idempotent: cleaning an already-cleaned token
changes nothing, for every input. -/
theorem cleanRut_idempotent (v : JSValue) : cleanRut (.str (cleanRut v)) = cleanRut v :=
  clean_idem v

/-- C10: for every digit string of length 1 to 19, appending the computed
check character yields a token `isValidRut` accepts; for a digit string of
length exactly 20 the calculator still returns a non-empty check character,
yet the resulting 21-character token is rejected, because the validator
bounds the whole token at 20 characters while the calculator bounds only
the digit sequence at 20. -/
theorem checkDigit_completeness_and_length_edge (d : List Char)
    (hdig : ∀ c ∈ d, jsIsDigit c = true) :
    (1 ≤ d.length → d.length ≤ 19 → ∀ dv, calculateVerificationDigit (.str d) = .ok dv →
      isValidRut (.str (d ++ dv)) = true) ∧
    (d.length = 20 →
      (∃ ch, calculateVerificationDigit (.str d) = .ok [ch]) ∧
      (∀ dv, calculateVerificationDigit (.str d) = .ok dv →
        isValidRut (.str (d ++ dv)) = false)) := by
  constructor
  · intro h1 h19 dv hdv
    have hne : d ≠ [] := List.length_pos.1 (by omega)
    rw [calcVD_ok hne (List.all_eq_true.2 hdig) (by omega)] at hdv
    have hdveq : dv = [dvChar (checksum d)] := (Except.ok.inj hdv).symm
    subst hdveq
    exact valid_append_dv hne hdig (by omega)
  · intro h20
    have hne : d ≠ [] := List.length_pos.1 (by omega)
    have hok := calcVD_ok hne (List.all_eq_true.2 hdig) (by omega)
    refine ⟨⟨dvChar (checksum d), hok⟩, ?_⟩
    intro dv hdv
    rw [hok] at hdv
    have hdveq : dv = [dvChar (checksum d)] := (Except.ok.inj hdv).symm
    subst hdveq
    have hch := dvChar_digit_or_K (checksum d)
    show isValidCore (cleanRut (.str (d ++ [dvChar (checksum d)]))) = false
    rw [clean_fixes_digit_append hdig hch]
    have hlen : (d ++ [dvChar (checksum d)]).length = 21 := by
      rw [List.length_append, h20]
      rfl
    unfold isValidCore
    rw [if_neg (by omega), if_pos (by omega)]

/-- C10 witness: `'1'` with its check digit `'9'` forms the valid token
`'19'`, while twenty `'1'` digits with their check digit `'2'` form a
21-character token that is rejected. -/
theorem checkDigit_completeness_witness :
    isValidRut (.str ("19".toList)) = true ∧
    isValidRut (.str ((List.replicate 20 '1') ++ ['2'])) = false := by
  constructor
  · exact (checkDigit_completeness_and_length_edge ['1'] (by decide)).1
      (by decide) (by decide) ['9'] (by decide)
  · exact ((checkDigit_completeness_and_length_edge (List.replicate 20 '1') (by decide)).2
      (by decide)).2 ['2'] (by decide)

end Rut
